import Mathlib

/-  Verification of the pytest-testmon plugin layer
    (src/testmon/pytest_testmon.py): a shallow embedding of the module's
    decision logic — test selection, duration-based scheduling, result
    aggregation, reconciliation and session-finish behaviour — with proofs
    of the properties the design documentation states about it.

    External collaborators from testmon_core (node-id key extraction,
    the persistent database) enter as explicit function parameters; the
    one operation whose body is not in this repository's sources,
    sync_db_fs_nodes, is modelled from the specification and marked so. -/

namespace Testmon

/-- A collected pytest item, as far as this module inspects it: its node id. -/
structure Item where
  nodeid : String
deriving DecidableEq

/-- Durations and their averages; python floats are modelled as rationals. -/
abbrev Duration := ℚ

/-! ## TestmonSelect.pytest_collection_modifyitems — the selected/deselected split
    (src/testmon/pytest_testmon.py lines 351–357). -/

/-- The loop of `TestmonSelect.pytest_collection_modifyitems`: each item is
appended to `deselected` when its nodeid is in `deselected_nodes`, to
`selected` otherwise. -/
def select_deselect (deselected_nodes : List String) : List Item → List Item × List Item
  | [] => ([], [])
  | item :: rest =>
      let p := select_deselect deselected_nodes rest
      if item.nodeid ∈ deselected_nodes then (p.1, item :: p.2)
      else (item :: p.1, p.2)

/-! ## Exit status normalisation (src lines 372–375). -/

/-- The pytest exit codes this module compares against. -/
inductive ExitCode where
  | OK
  | TESTS_FAILED
  | INTERRUPTED
  | INTERNAL_ERROR
  | USAGE_ERROR
  | NO_TESTS_COLLECTED
deriving DecidableEq

/-- The body of `TestmonSelect.pytest_sessionfinish`: rewrite the exit status
to OK when something was deselected and the status is NO_TESTS_COLLECTED. -/
def select_sessionfinish (deselected_nodes : List String) (exitstatus : ExitCode) : ExitCode :=
  if deselected_nodes.length ≠ 0 ∧ exitstatus = ExitCode.NO_TESTS_COLLECTED then ExitCode.OK
  else exitstatus

/-! ## process_result and the teardown commit (src lines 235–238 and 285–296). -/

/-- One phase report: pytest's outcome string and the phase's duration. -/
structure Report where
  outcome : String
  duration : Duration
deriving DecidableEq

/-- The `process_result` helper: failed iff any phase's outcome is "failed",
duration the sum over all recorded phases. -/
def process_result (result : List (String × Report)) : Bool × Duration :=
  (result.any fun r => r.2.outcome == "failed",
   (result.map fun r => r.2.duration).sum)

/-- Python dict assignment `reports[report.when] = report` on an association
list keyed by the phase name. -/
def setPhase (reports : List (String × Report)) (when' : String) (r : Report) :
    List (String × Report) :=
  if when' ∈ reports.map Prod.fst then
    reports.map fun p => if p.1 = when' then (when', r) else p
  else reports ++ [(when', r)]

/-- The body of `TestmonCollect.pytest_runtest_logreport` for one node: record
the phase report, and on a teardown report carrying node fingerprints commit
`process_result` of everything recorded for the node. Returns the updated
phase map and the committed (failed, duration) pair, if any. -/
def runtest_logreport (reports : List (String × Report)) (when' : String)
    (report : Report) (has_fingerprints : Bool) :
    List (String × Report) × Option (Bool × Duration) :=
  let reports' := setPhase reports when' report
  if when' = "teardown" ∧ has_fingerprints then ([], some (process_result reports'))
  else (reports', none)

/-! ## TestmonCollect.pytest_collection_modifyitems — node reconciliation
    (src lines 261–265). -/

/-- Modelled from the spec: `sync_db_fs_nodes` (testmon_core, not under src/)
removes every persisted Test Node whose identifier is not in the retained
set. -/
def sync_db_fs_nodes (persisted : List String) (retain : List String) : List String :=
  persisted.filter fun n => n ∈ retain

/-- The body of `TestmonCollect.pytest_collection_modifyitems`: sync runs iff
the session has recorded no test failures. Returns whether sync was invoked
and the persisted node set afterwards. -/
def collect_modifyitems (testsfailed : ℕ) (persisted : List String)
    (raw_nodeids : List String) : Bool × List String :=
  if testsfailed = 0 then (true, sync_db_fs_nodes persisted raw_nodeids)
  else (false, persisted)

/-! ## TestmonCollect.pytest_sessionfinish (src lines 298–301). -/

/-- Truthiness of the optional `is_worker` constructor argument (default
`None`). -/
def truthy : Option Bool → Bool
  | none => false
  | some b => b

/-- The calls `TestmonCollect.pytest_sessionfinish` makes, in order. -/
inductive SessionOp where
  | removeUnusedFingerprints
  | closeTestmon
deriving DecidableEq

/-- The body of `TestmonCollect.pytest_sessionfinish`: garbage-collect unused
fingerprints only when not a worker, then always close the collaborator. -/
def collect_sessionfinish (is_worker : Option Bool) : List SessionOp :=
  (if truthy is_worker then [] else [SessionOp.removeUnusedFingerprints])
    ++ [SessionOp.closeTestmon]

/-! ## pytest_configure (src lines 143–158). -/

/-- The two plugins `register_plugins` may register. -/
inductive PluginName where
  | TestmonSelectPlugin
  | TestmonCollectPlugin
deriving DecidableEq

/-- The `register_plugins` helper: TestmonSelect is registered when selection
or collection is on, TestmonCollect when collection is on. -/
def register_plugins (should_select should_collect : Bool) : List PluginName :=
  (if should_select || should_collect then [PluginName.TestmonSelectPlugin] else [])
    ++ (if should_collect then [PluginName.TestmonCollectPlugin] else [])

/-- Outcome of `pytest_configure`: whether pytest.exit was called (with which
message) and which plugins ended up registered. -/
structure ConfigOutcome where
  exited : Option String
  plugins : List PluginName
deriving DecidableEq

/-- The body of `pytest_configure`: when selection or collection is enabled,
initialise the testmon data store; a `TestmonException` (modelled as the
error branch) aborts via pytest.exit with the exception's message before
any plugin is registered. -/
def pytest_configure (should_collect should_select : Bool)
    (init_result : Except String Unit) : ConfigOutcome :=
  if should_select || should_collect then
    match init_result with
    | Except.error e => ⟨some e, []⟩
    | Except.ok _ => ⟨none, register_plugins should_select should_collect⟩
  else ⟨none, []⟩

/-! ## pytest_report_header — the survey notification (src lines 22, 181–199). -/

/-- SURVEY_NOTIFICATION_INTERVAL = timedelta(days=28); dates are modelled as
day numbers. -/
def SURVEY_NOTIFICATION_INTERVAL : ℤ := 28

/-- The survey-notification part of `pytest_report_header`: given today and
the stored `last_survey_notification_date` attribute, return whether the
notification line is appended and the attribute's value afterwards. -/
def report_header_survey (today : ℤ) (stored : Option ℤ) : Bool × Option ℤ :=
  match stored with
  | none => (true, some today)
  | some d =>
      if today - d < SURVEY_NOTIFICATION_INTERVAL then (false, some d)
      else (true, some today)

/-! ## get_failing and TestmonSelect.__init__ (src lines 304–314, 325–336). -/

/-- A persisted Test Node record as `get_failing` reads it: the
`result["failed"]` flag (and the duration it carries along). -/
structure NodeRecord where
  failed : Bool
  duration : Duration
deriving DecidableEq

/-- The `did_fail` helper: reads the record's "failed" entry. -/
def did_fail (reports : NodeRecord) : Bool := reports.failed

/-- The `get_failing` loop over `all_nodes`: collect the home files and the
(nodeid, result) pairs of every node whose record says it failed. -/
def get_failing (home_file : String → String) :
    List (String × NodeRecord) → List String × List (String × NodeRecord)
  | [] => ([], [])
  | (nodeid, result) :: rest =>
      let p := get_failing home_file rest
      if did_fail result then (home_file nodeid :: p.1, (nodeid, result) :: p.2)
      else p

/-- The `deselected_nodes` computation of `TestmonSelect.__init__`: the stable
node ids that are not keys of `get_failing`'s failing_nodes map. -/
def deselected_nodes (home_file : String → String)
    (all_nodes : List (String × NodeRecord)) (stable_nodeids : List String) :
    List String :=
  stable_nodeids.filter fun node =>
    node ∉ ((get_failing home_file all_nodes).2.map Prod.fst)

/-! ## sort_items_by_duration (src lines 317–321).

    Three `list.sort(key=...)` passes applied in place: first by the item's
    own average duration, then by the containing class's, then by the
    containing module's.  Python's sort is stable, so each pass is modelled
    as a stable insertion sort by the key's ≤ comparison.  The key-extraction
    helpers `get_node_class_name` / `get_node_module_name` live in
    testmon_core and enter as opaque parameters, as does the
    `avg_durations` table. -/

/-- The comparison of one `list.sort(key=k)` pass: ascending in `k`. -/
def keyLe {α : Type} (k : α → Duration) (a b : α) : Prop := k a ≤ k b

instance {α : Type} (k : α → Duration) : DecidableRel (keyLe k) := fun a b =>
  inferInstanceAs (Decidable (k a ≤ k b))

/-- The sort key of the first pass: `avg_durations[item.nodeid]`. -/
def nodeKey (avg_durations : String → Duration) (i : Item) : Duration :=
  avg_durations i.nodeid

/-- The sort key of the second pass:
`avg_durations[get_node_class_name(item.nodeid)]`. -/
def classKey (get_node_class_name : String → String)
    (avg_durations : String → Duration) (i : Item) : Duration :=
  avg_durations (get_node_class_name i.nodeid)

/-- The sort key of the third pass:
`avg_durations[get_node_module_name(item.nodeid)]`. -/
def moduleKey (get_node_module_name : String → String)
    (avg_durations : String → Duration) (i : Item) : Duration :=
  avg_durations (get_node_module_name i.nodeid)

/-- The body of `sort_items_by_duration`: stable-sort by the item's own
average duration, re-sort by the class average, re-sort by the module
average. -/
def sort_items_by_duration (get_node_class_name get_node_module_name : String → String)
    (avg_durations : String → Duration) (items : List Item) : List Item :=
  ((items.insertionSort
        (keyLe (nodeKey avg_durations))).insertionSort
      (keyLe (classKey get_node_class_name avg_durations))).insertionSort
    (keyLe (moduleKey get_node_module_name avg_durations))

/-! ## The specification's descriptions of the scheduler, for comparison. -/

/-- Pair every element of a list with its position, counting from `n`. -/
def tagFrom {α : Type} (n : ℕ) : List α → List (ℕ × α)
  | [] => []
  | a :: l => (n, a) :: tagFrom (n + 1) l

/-- Pair every element of a list with its original position. -/
def tag {α : Type} (l : List α) : List (ℕ × α) := tagFrom 0 l

/-- Refinement of a comparison `le` by a secondary relation `R` on ties:
`a` comes before `b` iff it is strictly `le`-smaller, or `le`-equivalent and
already `R`-before.  This is both the composite comparison of two sort keys
(primary `le`, secondary `R`) and the order in which a stable `le`-pass
leaves elements that were `R`-ordered before the pass. -/
def stepRel {α : Type} (le R : α → α → Prop) (a b : α) : Prop :=
  (le a b ∧ ¬ le b a) ∨ (le a b ∧ le b a ∧ R a b)

instance {α : Type} (le R : α → α → Prop) [DecidableRel le] [DecidableRel R] :
    DecidableRel (stepRel le R) := fun a b => by unfold stepRel; infer_instance

/-- A comparison lifted to position-tagged elements. -/
def onSnd {α : Type} (le : α → α → Prop) (p q : ℕ × α) : Prop := le p.2 q.2

instance {α : Type} (le : α → α → Prop) [DecidableRel le] : DecidableRel (onSnd le) :=
  fun p q => inferInstanceAs (Decidable (le p.2 q.2))

/-- Position order on tagged elements (weak form). -/
def idxLe {α : Type} (p q : ℕ × α) : Prop := p.1 ≤ q.1

instance {α : Type} : DecidableRel (idxLe (α := α)) := fun p q =>
  inferInstanceAs (Decidable (p.1 ≤ q.1))

/-- Position order on tagged elements (strict form). -/
def idxLt {α : Type} (p q : ℕ × α) : Prop := p.1 < q.1

/-- Following the spec's words: one stable ascending sort pass under the
comparison `le`, with ties broken by original collection order — sort the
position-tagged list by `le` refined by position, then forget positions. -/
def stableSortSpec {α : Type} (le : α → α → Prop) [DecidableRel le] (l : List α) :
    List α :=
  ((tag l).insertionSort (stepRel (onSnd le) idxLe)).map Prod.snd

/-- Following the spec's words: the lexicographic composite comparison on the
key triple (module average, class average, the test's own average). -/
def lexKeyLe {α : Type} (kM kC kN : α → Duration) (a b : α) : Prop :=
  kM a < kM b ∨ (kM a = kM b ∧ (kC a < kC b ∨ (kC a = kC b ∧ kN a ≤ kN b)))

instance {α : Type} (kM kC kN : α → Duration) : DecidableRel (lexKeyLe kM kC kN) :=
  fun a b => by unfold lexKeyLe; infer_instance

/-- Following the spec's words (C4): a single stable sort under the
lexicographic composite key (module average, class average, node average),
ties broken by original collection order. -/
def single_lex_sort (get_node_class_name get_node_module_name : String → String)
    (avg_durations : String → Duration) (items : List Item) : List Item :=
  stableSortSpec
    (lexKeyLe (moduleKey get_node_module_name avg_durations)
      (classKey get_node_class_name avg_durations)
      (nodeKey avg_durations)) items

/-- The pass sequence C5 states: three stable ascending passes applied from
coarsest to finest — first by module average, then by class average, last by
the test's own average. -/
def passes_coarse_to_fine (get_node_class_name get_node_module_name : String → String)
    (avg_durations : String → Duration) (items : List Item) : List Item :=
  stableSortSpec (keyLe (nodeKey avg_durations))
    (stableSortSpec (keyLe (classKey get_node_class_name avg_durations))
      (stableSortSpec (keyLe (moduleKey get_node_module_name avg_durations)) items))

/-- The amended pass sequence: three stable ascending passes applied from
finest to coarsest — first by the test's own average, then by class average,
last by module average. -/
def passes_fine_to_coarse (get_node_class_name get_node_module_name : String → String)
    (avg_durations : String → Duration) (items : List Item) : List Item :=
  stableSortSpec (keyLe (moduleKey get_node_module_name avg_durations))
    (stableSortSpec (keyLe (classKey get_node_class_name avg_durations))
      (stableSortSpec (keyLe (nodeKey avg_durations)) items))

/-- Concrete inputs telling the two pass orders apart: two items in two
modules. -/
def exItems : List Item := [⟨"a"⟩, ⟨"b"⟩]

/-- Every item in one class partition. -/
def exCls : String → String := fun _ => "C"

/-- Item "a" lives in module M1, item "b" in module M2. -/
def exMod : String → String := fun s => if s = "a" then "M1" else "M2"

/-- Average durations: test "a" is fast but its module M1 is slow. -/
def exAvg : String → Duration := fun s =>
  if s = "a" then 1 else if s = "b" then 2
  else if s = "M1" then 10 else if s = "M2" then 1 else 0

/-! ## Theorems: the selection split (C1). -/

theorem select_deselect_fst (ds : List String) (items : List Item) :
    (select_deselect ds items).1 = items.filter fun i => decide (i.nodeid ∉ ds) := by
  induction items with
  | nil => rfl
  | cons a rest ih =>
    by_cases h : a.nodeid ∈ ds <;> simp [select_deselect, h, ih, List.filter_cons]

theorem select_deselect_snd (ds : List String) (items : List Item) :
    (select_deselect ds items).2 = items.filter fun i => decide (i.nodeid ∈ ds) := by
  induction items with
  | nil => rfl
  | cons a rest ih =>
    by_cases h : a.nodeid ∈ ds <;> simp [select_deselect, h, ih, List.filter_cons]

theorem select_deselect_perm (ds : List String) (items : List Item) :
    List.Perm ((select_deselect ds items).1 ++ (select_deselect ds items).2) items := by
  induction items with
  | nil => simp [select_deselect]
  | cons a rest ih =>
    by_cases h : a.nodeid ∈ ds
    · simpa [select_deselect, h] using List.perm_middle.trans (ih.cons a)
    · simpa [select_deselect, h] using ih.cons a

/-- C1: `TestmonSelect.pytest_collection_modifyitems` places every collected
item in exactly one of the two groups — an item is deselected iff its nodeid
is in the precomputed deselected set, selected otherwise — so selected and
deselected together are a permutation of the full discovered item list and
share no item. -/
theorem pytest_collection_modifyitems_partition (ds : List String) (items : List Item) :
    List.Perm ((select_deselect ds items).1 ++ (select_deselect ds items).2) items
    ∧ (select_deselect ds items).2 = items.filter (fun i => decide (i.nodeid ∈ ds))
    ∧ (select_deselect ds items).1 = items.filter (fun i => decide (i.nodeid ∉ ds))
    ∧ List.Disjoint ((select_deselect ds items).1) ((select_deselect ds items).2) := by
  refine ⟨select_deselect_perm ds items, select_deselect_snd ds items,
    select_deselect_fst ds items, ?_⟩
  intro x hx1 hx2
  rw [select_deselect_fst, List.mem_filter] at hx1
  rw [select_deselect_snd, List.mem_filter] at hx2
  simp only [decide_eq_true_eq] at hx1 hx2
  exact hx1.2 hx2.2

/-! ## Theorems: exit status normalisation (C3). -/

/-- C3: at session finish, the exit status is rewritten to OK exactly when at
least one node was deselected and the status was NO_TESTS_COLLECTED; in every
other case it is left unchanged. -/
theorem select_sessionfinish_spec (ds : List String) (es : ExitCode) :
    (ds ≠ [] → es = ExitCode.NO_TESTS_COLLECTED →
      select_sessionfinish ds es = ExitCode.OK)
    ∧ ((ds = [] ∨ es ≠ ExitCode.NO_TESTS_COLLECTED) → select_sessionfinish ds es = es) := by
  constructor
  · intro h1 h2
    simp [select_sessionfinish, h2, List.length_eq_zero, h1]
  · intro h
    rcases h with h | h <;> simp [select_sessionfinish, h]

/-! ## Theorems: result aggregation and the teardown commit (C6). -/

/-- C6: `process_result` reports failed iff some recorded phase's outcome is
"failed" and the duration as the sum over all recorded phases, and the
teardown branch of `pytest_runtest_logreport` commits exactly these aggregated
values (it commits iff the report is a teardown report carrying
fingerprints). -/
theorem process_result_spec (reports : List (String × Report)) (when' : String)
    (report : Report) (hfp : Bool) :
    ((process_result reports).1 = true ↔ ∃ p ∈ reports, p.2.outcome = "failed")
    ∧ (process_result reports).2 = (reports.map fun r => r.2.duration).sum
    ∧ ((runtest_logreport reports when' report hfp).2 ≠ none
        ↔ when' = "teardown" ∧ hfp = true)
    ∧ (when' = "teardown" → hfp = true →
        (runtest_logreport reports when' report hfp).2
          = some (process_result (setPhase reports when' report))) := by
  refine ⟨?_, rfl, ?_, ?_⟩
  · simp [process_result, List.any_eq_true]
  · by_cases h : when' = "teardown" ∧ hfp = true
    · simp [runtest_logreport, h.1, h.2]
    · rcases not_and_or.mp h with h' | h'
      · simp [runtest_logreport, h']
      · simp only [Bool.not_eq_true] at h'
        simp [runtest_logreport, h']
  · intro h1 h2
    simp [runtest_logreport, h1, h2]

/-! ## Theorems: node reconciliation (C7). -/

/-- C7: reconciliation (`sync_db_fs_nodes` with the collected raw node ids as
the retained set) is invoked during collection-modifyitems iff the session
has recorded zero failures; when a failure has occurred the persisted nodes
are untouched, and when sync runs a node survives iff it was persisted and
collected. -/
theorem collect_modifyitems_spec (testsfailed : ℕ) (persisted raw : List String) :
    ((collect_modifyitems testsfailed persisted raw).1 = true ↔ testsfailed = 0)
    ∧ (testsfailed ≠ 0 → (collect_modifyitems testsfailed persisted raw).2 = persisted)
    ∧ (testsfailed = 0 → ∀ n,
        (n ∈ (collect_modifyitems testsfailed persisted raw).2
          ↔ n ∈ persisted ∧ n ∈ raw)) := by
  refine ⟨?_, ?_, ?_⟩
  · by_cases h : testsfailed = 0 <;> simp [collect_modifyitems, h]
  · intro h; simp [collect_modifyitems, h]
  · intro h n
    simp [collect_modifyitems, h, sync_db_fs_nodes, List.mem_filter]

/-! ## Theorems: worker suppression of fingerprint GC (C8). -/

/-- C8: at session finish, `TestmonCollect` garbage-collects unused
fingerprints iff it was constructed as a non-worker (falsy `is_worker`),
while the Testmon collaborator is closed in every process. -/
theorem collect_sessionfinish_spec (w : Option Bool) :
    (SessionOp.removeUnusedFingerprints ∈ collect_sessionfinish w ↔ truthy w = false)
    ∧ SessionOp.closeTestmon ∈ collect_sessionfinish w := by
  cases h : truthy w <;> simp [collect_sessionfinish, h]

/-! ## Theorems: configuration-time abort (C9). -/

/-- C9: if initialising the testmon data store raises a `TestmonException`,
`pytest_configure` aborts via pytest.exit with that exception's message and
registers neither plugin. -/
theorem pytest_configure_exception_spec (should_collect should_select : Bool)
    (msg : String) (h : (should_select || should_collect) = true) :
    pytest_configure should_collect should_select (Except.error msg)
      = ⟨some msg, []⟩ := by
  simp [pytest_configure, h]

theorem pytest_configure_exception_witness :
    pytest_configure true false (Except.error "unreadable database")
      = ⟨some "unreadable database", []⟩ :=
  pytest_configure_exception_spec true false "unreadable database" rfl

/-! ## Theorems: the survey notification (C10). -/

/-- C10 counterexample: when the stored date equals today (so it is present
and fresh), the attribute after the header still equals today's date, refuting
"the attribute equals today's date exactly when it was absent or stale". -/
theorem report_header_survey_counterexample :
    ¬(((report_header_survey 0 (some 0)).2 = some (0 : ℤ))
        ↔ ((some (0 : ℤ)) = none
            ∨ (0 : ℤ) - 0 ≥ SURVEY_NOTIFICATION_INTERVAL)) := by
  decide

/-- C10 (amended): the survey line is appended iff the stored attribute is
absent or lies 28 or more days before today; after the header runs the
attribute is set to today's date whenever it was absent or stale, and is left
unchanged otherwise. -/
theorem report_header_survey_spec (today : ℤ) (stored : Option ℤ) :
    ((report_header_survey today stored).1 = true
      ↔ (stored = none
          ∨ ∃ d, stored = some d ∧ today - d ≥ SURVEY_NOTIFICATION_INTERVAL))
    ∧ ((stored = none
          ∨ ∃ d, stored = some d ∧ today - d ≥ SURVEY_NOTIFICATION_INTERVAL) →
        (report_header_survey today stored).2 = some today)
    ∧ (∀ d, stored = some d → today - d < SURVEY_NOTIFICATION_INTERVAL →
        (report_header_survey today stored).2 = stored) := by
  rcases stored with _ | d
  · simp [report_header_survey]
  · simp only [report_header_survey]
    by_cases h : today - d < SURVEY_NOTIFICATION_INTERVAL
    · rw [if_pos h]
      refine ⟨?_, ?_, ?_⟩
      · apply iff_of_false
        · simp
        · rintro (h' | ⟨d', hd', hge⟩)
          · exact Option.noConfusion h'
          · rw [Option.some_inj] at hd'
            omega
      · rintro (h' | ⟨d', hd', hge⟩)
        · exact Option.noConfusion h'
        · rw [Option.some_inj] at hd'
          omega
      · intro d' hd' _
        rfl
    · rw [if_neg h]
      refine ⟨?_, ?_, ?_⟩
      · apply iff_of_true rfl
        exact Or.inr ⟨d, rfl, by omega⟩
      · intro _
        rfl
      · intro d' hd' hlt
        rw [Option.some_inj] at hd'
        subst hd'
        omega

/-! ## Theorems: failure stickiness of the deselected set (C2). -/

theorem get_failing_snd (home_file : String → String)
    (l : List (String × NodeRecord)) :
    (get_failing home_file l).2 = l.filter fun p => did_fail p.2 := by
  induction l with
  | nil => rfl
  | cons a rest ih =>
    obtain ⟨nodeid, result⟩ := a
    by_cases h : did_fail result = true
    · simp [get_failing, h, List.filter_cons, ih]
    · simp [get_failing, h, List.filter_cons, ih]

theorem mem_get_failing_keys (home_file : String → String)
    (l : List (String × NodeRecord)) (n : String) :
    n ∈ ((get_failing home_file l).2.map Prod.fst)
      ↔ ∃ r, (n, r) ∈ l ∧ did_fail r = true := by
  rw [get_failing_snd]
  simp only [List.mem_map, List.mem_filter]
  constructor
  · rintro ⟨⟨m, r⟩, ⟨hmem, hfail⟩, rfl⟩
    exact ⟨r, hmem, hfail⟩
  · rintro ⟨r, hmem, hfail⟩
    exact ⟨(n, r), ⟨hmem, hfail⟩, rfl⟩

/-- C2: a node whose persisted record says its last outcome was a failure is
never in the deselected set, and a node is deselected iff it is stable and no
record in the persisted node map reports it failing. -/
theorem deselected_nodes_spec (home_file : String → String)
    (all_nodes : List (String × NodeRecord)) (stable_nodeids : List String) :
    (∀ n r, (n, r) ∈ all_nodes → did_fail r = true →
      n ∉ deselected_nodes home_file all_nodes stable_nodeids)
    ∧ (∀ n, n ∈ deselected_nodes home_file all_nodes stable_nodeids
        ↔ n ∈ stable_nodeids ∧ ∀ r, (n, r) ∈ all_nodes → did_fail r = false) := by
  have hmem : ∀ n, n ∈ deselected_nodes home_file all_nodes stable_nodeids
      ↔ n ∈ stable_nodeids ∧ ∀ r, (n, r) ∈ all_nodes → did_fail r = false := by
    intro n
    rw [deselected_nodes, List.mem_filter]
    simp only [decide_eq_true_eq, mem_get_failing_keys, not_exists, not_and,
      Bool.not_eq_true]
  refine ⟨?_, hmem⟩
  intro n r hr hf hcontra
  have := ((hmem n).mp hcontra).2 r hr
  rw [hf] at this
  exact absurd this (by simp)

/-! ## Stable-sort machinery.

    A stable sort pass by a total preorder `le` leaves the list pairwise
    ordered by `stepRel le R` whenever the input was pairwise ordered by the
    tie-break relation `R`; a permutation pairwise ordered by an asymmetric
    relation is unique.  Together these identify every composition of stable
    passes with a single sort. -/

theorem stepRel_le {α : Type} {le R : α → α → Prop} {a b : α}
    (h : stepRel le R a b) : le a b := by
  rcases h with ⟨h, _⟩ | ⟨h, _, _⟩ <;> exact h

theorem stepRel_of_le {α : Type} {le R : α → α → Prop} {a b : α}
    (h : le a b) (hR : R a b) : stepRel le R a b := by
  by_cases hba : le b a
  · exact Or.inr ⟨h, hba, hR⟩
  · exact Or.inl ⟨h, hba⟩

theorem stepRel_asymm {α : Type} {le R : α → α → Prop}
    (hR : ∀ a b, R a b → R b a → False) (a b : α)
    (h : stepRel le R a b) (h' : stepRel le R b a) : False := by
  rcases h with ⟨h1, h2⟩ | ⟨h1, h2, h3⟩ <;>
    rcases h' with ⟨g1, g2⟩ | ⟨g1, g2, g3⟩
  · exact h2 g1
  · exact h2 g1
  · exact g2 h1
  · exact hR a b h3 g3

theorem stepRel_total {α : Type} {le2 le1 : α → α → Prop}
    (h2t : ∀ a b, le2 a b ∨ le2 b a) (h1t : ∀ a b, le1 a b ∨ le1 b a)
    (a b : α) : stepRel le2 le1 a b ∨ stepRel le2 le1 b a := by
  by_cases hab : le2 a b <;> by_cases hba : le2 b a
  · rcases h1t a b with h | h
    · exact Or.inl (Or.inr ⟨hab, hba, h⟩)
    · exact Or.inr (Or.inr ⟨hba, hab, h⟩)
  · exact Or.inl (Or.inl ⟨hab, hba⟩)
  · exact Or.inr (Or.inl ⟨hba, hab⟩)
  · rcases h2t a b with h | h
    · exact absurd h hab
    · exact absurd h hba

theorem stepRel_trans {α : Type} {le2 le1 : α → α → Prop}
    (h2tr : ∀ a b c, le2 a b → le2 b c → le2 a c)
    (h1tr : ∀ a b c, le1 a b → le1 b c → le1 a c)
    (a b c : α) (h : stepRel le2 le1 a b) (h' : stepRel le2 le1 b c) :
    stepRel le2 le1 a c := by
  rcases h with ⟨h1, h2⟩ | ⟨h1, h2, h3⟩ <;>
    rcases h' with ⟨g1, g2⟩ | ⟨g1, g2, g3⟩
  · exact Or.inl ⟨h2tr a b c h1 g1, fun hca => h2 (h2tr b c a g1 hca)⟩
  · exact Or.inl ⟨h2tr a b c h1 g1, fun hca => h2 (h2tr b c a g1 hca)⟩
  · exact Or.inl ⟨h2tr a b c h1 g1, fun hca => g2 (h2tr c a b hca h1)⟩
  · exact Or.inr ⟨h2tr a b c h1 g1, h2tr c b a g2 h2, h1tr a b c h3 g3⟩

/-- Flattening a composite comparison: what one stable pass by the composite
of `le2` over `le1` promises is implied by a pass by `le2` over a pass by
`le1`. -/
theorem stepRel_comb_imp {α : Type} {le2 le1 R : α → α → Prop} {a b : α}
    (h : stepRel (stepRel le2 le1) R a b) : stepRel le2 (stepRel le1 R) a b := by
  rcases h with ⟨hS, hnS⟩ | ⟨hS, hS', hR⟩
  · rcases hS with ⟨h2, hn2⟩ | ⟨h2, h2', h1⟩
    · exact Or.inl ⟨h2, hn2⟩
    · refine Or.inr ⟨h2, h2', Or.inl ⟨h1, fun h1' => hnS (Or.inr ⟨h2', h2, h1'⟩)⟩⟩
  · rcases hS with ⟨h2, hn2⟩ | ⟨h2, h2', h1⟩
    · exact absurd (stepRel_le hS') hn2
    · rcases hS' with ⟨g2, gn2⟩ | ⟨g2, g2', g1⟩
      · exact absurd h2 gn2
      · exact Or.inr ⟨h2, h2', Or.inr ⟨h1, g1, hR⟩⟩

/-- Inserting `a` into a list it is `R`-before keeps the pairwise
`stepRel le R` order. -/
theorem pairwise_orderedInsert_stable {α : Type} (le : α → α → Prop)
    [DecidableRel le] (R : α → α → Prop)
    (htot : ∀ a b, le a b ∨ le b a)
    (htrans : ∀ a b c, le a b → le b c → le a c) (a : α) :
    ∀ l : List α, l.Pairwise (stepRel le R) → (∀ z ∈ l, R a z) →
      (l.orderedInsert le a).Pairwise (stepRel le R)
  | [], _, _ => List.pairwise_singleton _ _
  | y :: ys, hl, ha => by
    rw [List.orderedInsert]
    by_cases hay : le a y
    · rw [if_pos hay]
      refine List.Pairwise.cons ?_ hl
      intro z hz
      rcases List.mem_cons.mp hz with rfl | hz'
      · exact stepRel_of_le hay (ha _ (List.mem_cons_self _ _))
      · have hyz : le y z := stepRel_le (List.rel_of_pairwise_cons hl hz')
        exact stepRel_of_le (htrans a y z hay hyz) (ha z (List.mem_cons_of_mem y hz'))
    · rw [if_neg hay]
      refine List.Pairwise.cons ?_
        (pairwise_orderedInsert_stable le R htot htrans a ys hl.of_cons
          fun z hz => ha z (List.mem_cons_of_mem y hz))
      intro w hw
      rcases (List.mem_orderedInsert le).mp hw with rfl | hw'
      · exact Or.inl ⟨(htot w y).resolve_left hay, hay⟩
      · exact List.rel_of_pairwise_cons hl hw'

/-- Stability of insertion sort: a pass by a total preorder `le` leaves
elements that were `R`-ordered in `stepRel le R` order. -/
theorem pairwise_insertionSort_stable {α : Type} (le : α → α → Prop)
    [DecidableRel le] (R : α → α → Prop)
    (htot : ∀ a b, le a b ∨ le b a)
    (htrans : ∀ a b c, le a b → le b c → le a c) :
    ∀ l : List α, l.Pairwise R → (l.insertionSort le).Pairwise (stepRel le R)
  | [], _ => List.Pairwise.nil
  | a :: l, hl => by
    rw [List.insertionSort]
    refine pairwise_orderedInsert_stable le R htot htrans a _
      (pairwise_insertionSort_stable le R htot htrans l hl.of_cons) ?_
    intro z hz
    exact List.rel_of_pairwise_cons hl ((List.mem_insertionSort le).mp hz)

/-- A permutation pairwise ordered by an asymmetric relation is unique. -/
theorem eq_of_perm_of_pairwise {α : Type} {S : α → α → Prop}
    (hS : ∀ a b, S a b → S b a → False) {l₁ l₂ : List α}
    (hp : List.Perm l₁ l₂) (h₁ : l₁.Pairwise S) (h₂ : l₂.Pairwise S) : l₁ = l₂ :=
  haveI : IsAntisymm α S := ⟨fun a b ha hb => (hS a b ha hb).elim⟩
  List.eq_of_perm_of_sorted hp h₁ h₂

theorem le_fst_of_mem_tagFrom {α : Type} {p : ℕ × α} :
    ∀ {n : ℕ} {l : List α}, p ∈ tagFrom n l → n ≤ p.1 := by
  intro n l
  induction l generalizing n with
  | nil => intro h; exact absurd h (List.not_mem_nil p)
  | cons a l ih =>
    intro h
    rcases List.mem_cons.mp h with rfl | h'
    · exact Nat.le_refl _
    · exact Nat.le_trans (Nat.le_succ n) (ih h')

theorem pairwise_tagFrom {α : Type} : ∀ (n : ℕ) (l : List α),
    (tagFrom n l).Pairwise (idxLt (α := α))
  | _, [] => List.Pairwise.nil
  | n, a :: l => by
    refine List.Pairwise.cons ?_ (pairwise_tagFrom (n + 1) l)
    intro q hq
    exact Nat.lt_of_lt_of_le (Nat.lt_succ_self n) (le_fst_of_mem_tagFrom hq)

theorem pairwise_tag {α : Type} (l : List α) : (tag l).Pairwise (idxLt (α := α)) :=
  pairwise_tagFrom 0 l

theorem map_snd_tagFrom {α : Type} : ∀ (n : ℕ) (l : List α),
    (tagFrom n l).map Prod.snd = l
  | _, [] => rfl
  | n, a :: l => by rw [tagFrom, List.map_cons, map_snd_tagFrom (n + 1) l]

theorem map_snd_tag {α : Type} (l : List α) : (tag l).map Prod.snd = l :=
  map_snd_tagFrom 0 l

/-- Sorting the tagged list by a comparison on the elements and then
forgetting positions is sorting the untagged list. -/
theorem map_snd_insertionSort {α : Type} (le : α → α → Prop) [DecidableRel le]
    (l : List (ℕ × α)) :
    (l.insertionSort (onSnd le)).map Prod.snd = (l.map Prod.snd).insertionSort le :=
  List.map_insertionSort (onSnd le) le Prod.snd l fun _ _ _ _ => Iff.rfl

theorem orderedInsert_congr {α : Type} {le le' : α → α → Prop}
    [DecidableRel le] [DecidableRel le'] (h : ∀ a b, le a b ↔ le' a b) (a : α) :
    ∀ l : List α, l.orderedInsert le a = l.orderedInsert le' a
  | [] => rfl
  | b :: l => by
    rw [List.orderedInsert, List.orderedInsert]
    by_cases hab : le a b
    · rw [if_pos hab, if_pos ((h a b).mp hab)]
    · rw [if_neg hab, if_neg fun h' => hab ((h a b).mpr h'),
        orderedInsert_congr h a l]

/-- Insertion sort only depends on the comparison up to equivalence. -/
theorem insertionSort_congr {α : Type} {le le' : α → α → Prop}
    [DecidableRel le] [DecidableRel le'] (h : ∀ a b, le a b ↔ le' a b) :
    ∀ l : List α, l.insertionSort le = l.insertionSort le'
  | [] => rfl
  | a :: l => by
    rw [List.insertionSort, List.insertionSort, insertionSort_congr h l,
      orderedInsert_congr h a]

/-- Two stable passes compose into one: sorting by `le1` and then re-sorting
by `le2` is one stable sort by `le2` refined by `le1` on ties. -/
theorem insertionSort_insertionSort {α : Type} (le1 le2 : α → α → Prop)
    [DecidableRel le1] [DecidableRel le2]
    (h1t : ∀ a b, le1 a b ∨ le1 b a) (h1tr : ∀ a b c, le1 a b → le1 b c → le1 a c)
    (h2t : ∀ a b, le2 a b ∨ le2 b a) (h2tr : ∀ a b c, le2 a b → le2 b c → le2 a c)
    (l : List α) :
    (l.insertionSort le1).insertionSort le2 = l.insertionSort (stepRel le2 le1) := by
  have hA1 : ((tag l).insertionSort (onSnd le1)).Pairwise
      (stepRel (onSnd le1) (idxLt (α := α))) :=
    pairwise_insertionSort_stable (onSnd le1) idxLt
      (fun p q => h1t p.2 q.2) (fun p q r => h1tr p.2 q.2 r.2) _ (pairwise_tag l)
  have hA2 : (((tag l).insertionSort (onSnd le1)).insertionSort (onSnd le2)).Pairwise
      (stepRel (onSnd le2) (stepRel (onSnd le1) (idxLt (α := α)))) :=
    pairwise_insertionSort_stable (onSnd le2) _
      (fun p q => h2t p.2 q.2) (fun p q r => h2tr p.2 q.2 r.2) _ hA1
  have hB0 : ((tag l).insertionSort (onSnd (stepRel le2 le1))).Pairwise
      (stepRel (onSnd (stepRel le2 le1)) (idxLt (α := α))) :=
    pairwise_insertionSort_stable (onSnd (stepRel le2 le1)) idxLt
      (fun p q => stepRel_total h2t h1t p.2 q.2)
      (fun p q r => stepRel_trans h2tr h1tr p.2 q.2 r.2) _ (pairwise_tag l)
  have hB : ((tag l).insertionSort (onSnd (stepRel le2 le1))).Pairwise
      (stepRel (onSnd le2) (stepRel (onSnd le1) (idxLt (α := α)))) := by
    refine List.Pairwise.imp ?_ hB0
    intro p q h
    exact stepRel_comb_imp h
  have hasymm : ∀ p q : ℕ × α,
      stepRel (onSnd le2) (stepRel (onSnd le1) idxLt) p q →
      stepRel (onSnd le2) (stepRel (onSnd le1) idxLt) q p → False :=
    stepRel_asymm (stepRel_asymm fun p q h h' => Nat.lt_asymm h h')
  have hperm : List.Perm (((tag l).insertionSort (onSnd le1)).insertionSort (onSnd le2))
      ((tag l).insertionSort (onSnd (stepRel le2 le1))) :=
    ((List.perm_insertionSort _ _).trans (List.perm_insertionSort _ _)).trans
      (List.perm_insertionSort _ _).symm
  have heq := congrArg (List.map Prod.snd)
    (eq_of_perm_of_pairwise hasymm hperm hA2 hB)
  simp only [map_snd_insertionSort, map_snd_tag] at heq
  exact heq

/-- One stable pass equals the spec's formulation of it: sort the
position-tagged list by the comparison refined by position, then forget
positions. -/
theorem insertionSort_eq_stableSortSpec {α : Type} (le : α → α → Prop)
    [DecidableRel le]
    (htot : ∀ a b, le a b ∨ le b a) (htrans : ∀ a b c, le a b → le b c → le a c)
    (l : List α) : l.insertionSort le = stableSortSpec le l := by
  have hA : ((tag l).insertionSort (onSnd le)).Pairwise
      (stepRel (onSnd le) (idxLt (α := α))) :=
    pairwise_insertionSort_stable (onSnd le) idxLt
      (fun p q => htot p.2 q.2) (fun p q r => htrans p.2 q.2 r.2) _ (pairwise_tag l)
  have hB0 : ((tag l).insertionSort (stepRel (onSnd le) idxLe)).Pairwise
      (stepRel (stepRel (onSnd le) idxLe) (idxLt (α := α))) :=
    pairwise_insertionSort_stable _ idxLt
      (stepRel_total (fun p q => htot p.2 q.2) fun p q => Nat.le_total p.1 q.1)
      (stepRel_trans (fun p q r => htrans p.2 q.2 r.2)
        fun p q r hpq hqr => Nat.le_trans hpq hqr)
      _ (pairwise_tag l)
  have hB : ((tag l).insertionSort (stepRel (onSnd le) idxLe)).Pairwise
      (stepRel (onSnd le) (idxLt (α := α))) := by
    refine List.Pairwise.imp ?_ hB0
    intro p q h
    rcases h with ⟨hS, hnS⟩ | ⟨hS, hS', hlt⟩
    · rcases hS with ⟨h1, hn1⟩ | ⟨h1, h1', hle⟩
      · exact Or.inl ⟨h1, hn1⟩
      · exact Or.inr ⟨h1, h1',
          Nat.lt_of_not_le fun hx => hnS (Or.inr ⟨h1', h1, hx⟩)⟩
    · exact Or.inr ⟨stepRel_le hS, stepRel_le hS', hlt⟩
  have hasymm : ∀ p q : ℕ × α,
      stepRel (onSnd le) idxLt p q → stepRel (onSnd le) idxLt q p → False :=
    stepRel_asymm fun p q h h' => Nat.lt_asymm h h'
  have heq := congrArg (List.map Prod.snd)
    (eq_of_perm_of_pairwise hasymm
      ((List.perm_insertionSort _ _).trans (List.perm_insertionSort _ _).symm) hA hB)
  rw [map_snd_insertionSort, map_snd_tag] at heq
  exact heq

/-! ## Theorems: the scheduler (C4 and C5). -/

theorem keyLe_total {α : Type} (k : α → Duration) :
    ∀ a b, keyLe k a b ∨ keyLe k b a :=
  fun a b => le_total (k a) (k b)

theorem keyLe_trans {α : Type} (k : α → Duration) :
    ∀ a b c, keyLe k a b → keyLe k b c → keyLe k a c :=
  fun _ _ _ h h' => le_trans h h'

/-- The nested composite of the three key comparisons is the lexicographic
composite-key comparison. -/
theorem stepRel_keyLe_iff {α : Type} (kM kC kN : α → Duration) (a b : α) :
    stepRel (keyLe kM) (stepRel (keyLe kC) (keyLe kN)) a b
      ↔ lexKeyLe kM kC kN a b := by
  constructor
  · rintro (⟨h1, h2⟩ | ⟨h1, h2, ⟨g1, g2⟩ | ⟨g1, g2, g3⟩⟩)
    · exact Or.inl (lt_of_le_not_le h1 h2)
    · exact Or.inr ⟨le_antisymm h1 h2, Or.inl (lt_of_le_not_le g1 g2)⟩
    · exact Or.inr ⟨le_antisymm h1 h2, Or.inr ⟨le_antisymm g1 g2, g3⟩⟩
  · rintro (h | ⟨h1, h | ⟨g1, g2⟩⟩)
    · exact Or.inl ⟨le_of_lt h, not_le.mpr h⟩
    · exact Or.inr ⟨le_of_eq h1, le_of_eq h1.symm,
        Or.inl ⟨le_of_lt h, not_le.mpr h⟩⟩
    · exact Or.inr ⟨le_of_eq h1, le_of_eq h1.symm,
        Or.inr ⟨le_of_eq g1, le_of_eq g1.symm, g2⟩⟩

theorem lexKeyLe_total {α : Type} (kM kC kN : α → Duration) :
    ∀ a b, lexKeyLe kM kC kN a b ∨ lexKeyLe kM kC kN b a := fun a b =>
  (stepRel_total (keyLe_total kM)
      (stepRel_total (keyLe_total kC) (keyLe_total kN)) a b).imp
    (stepRel_keyLe_iff kM kC kN a b).mp (stepRel_keyLe_iff kM kC kN b a).mp

theorem lexKeyLe_trans {α : Type} (kM kC kN : α → Duration) :
    ∀ a b c, lexKeyLe kM kC kN a b → lexKeyLe kM kC kN b c →
      lexKeyLe kM kC kN a c := fun a b c h h' =>
  (stepRel_keyLe_iff kM kC kN a c).mp
    (stepRel_trans (keyLe_trans kM)
      (stepRel_trans (keyLe_trans kC) (keyLe_trans kN)) a b c
      ((stepRel_keyLe_iff kM kC kN a b).mpr h)
      ((stepRel_keyLe_iff kM kC kN b c).mpr h'))

/-- C4: for every item list and every average-duration table (and any class
and module key extraction), the three-pass order produced by
`sort_items_by_duration` equals the order of a single stable sort under the
lexicographic composite key (module average, class average, the test's own
average), ties broken by original collection order. -/
theorem sort_items_by_duration_eq_single_lex_sort
    (get_node_class_name get_node_module_name : String → String)
    (avg_durations : String → Duration) (items : List Item) :
    sort_items_by_duration get_node_class_name get_node_module_name avg_durations items
      = single_lex_sort get_node_class_name get_node_module_name avg_durations items := by
  unfold sort_items_by_duration single_lex_sort
  rw [insertionSort_insertionSort (keyLe (nodeKey avg_durations))
      (keyLe (classKey get_node_class_name avg_durations))
      (keyLe_total _) (keyLe_trans _) (keyLe_total _) (keyLe_trans _) items,
    insertionSort_insertionSort
      (stepRel (keyLe (classKey get_node_class_name avg_durations))
        (keyLe (nodeKey avg_durations)))
      (keyLe (moduleKey get_node_module_name avg_durations))
      (stepRel_total (keyLe_total _) (keyLe_total _))
      (stepRel_trans (keyLe_trans _) (keyLe_trans _))
      (keyLe_total _) (keyLe_trans _) items,
    insertionSort_congr
      (stepRel_keyLe_iff (moduleKey get_node_module_name avg_durations)
        (classKey get_node_class_name avg_durations) (nodeKey avg_durations)) items,
    insertionSort_eq_stableSortSpec _ (lexKeyLe_total _ _ _) (lexKeyLe_trans _ _ _) items]

/-- C5 counterexample: on a concrete two-item input the order produced by
`sort_items_by_duration` (which sorts by the test's own key first and by the
module key last) differs from the coarsest-to-finest pass sequence the claim
states. -/
theorem sort_items_by_duration_counterexample :
    sort_items_by_duration exCls exMod exAvg exItems
      ≠ passes_coarse_to_fine exCls exMod exAvg exItems := by
  decide

/-- C5 (amended): the scheduler's order equals three stable
ascending-average-duration passes applied from finest to coarsest — first by
the test's own average duration, then by the containing class's, last by the
containing module's — for every input list and duration table. -/
theorem sort_items_by_duration_eq_passes_fine_to_coarse
    (get_node_class_name get_node_module_name : String → String)
    (avg_durations : String → Duration) (items : List Item) :
    sort_items_by_duration get_node_class_name get_node_module_name avg_durations items
      = passes_fine_to_coarse get_node_class_name get_node_module_name
          avg_durations items := by
  unfold sort_items_by_duration passes_fine_to_coarse
  rw [← insertionSort_eq_stableSortSpec (keyLe (nodeKey avg_durations))
      (keyLe_total _) (keyLe_trans _) items,
    ← insertionSort_eq_stableSortSpec
      (keyLe (classKey get_node_class_name avg_durations))
      (keyLe_total _) (keyLe_trans _) _,
    ← insertionSort_eq_stableSortSpec
      (keyLe (moduleKey get_node_module_name avg_durations))
      (keyLe_total _) (keyLe_trans _) _]

end Testmon
